import Mathlib

/-!
# Verification of the rkyv B-tree map validator and validation entry points

This development embeds the validator from
`src/collections/btree_map/validation.rs` and the entry points from
`src/validation/mod.rs` as executable Lean definitions and proves the spec's
claims about them.

Modelling conventions:
* Buffer addresses are natural numbers; the archive memory is an association
  list from addresses to decoded nodes.  Claiming an address models
  `claim_owned_rel_ptr` marking the node's byte range as owned; since distinct
  validated nodes occupy disjoint ranges, one address stands for one range.
* Keys and values are natural numbers (`K : Ord` is consumed abstractly; the
  element validators for `K` and `V` are external collaborators and are
  modelled as always succeeding).
* A leaf's forward pointer is `Option Addr`: `none` models an encoded offset
  of 0 (a null relative pointer, which resolves to the pointer's own base),
  `some a` models a non-null pointer resolving to address `a`.
* The `meta` tag packing `(is_inner, entry_count)` is modelled by the `Node`
  constructor tag together with the tail list length, mirroring `split_meta`.
-/

abbrev Addr := Nat
abbrev Key := Nat
abbrev Val := Nat

/-- A classified B-tree node, as produced by `Node::check_and_classify`:
either an inner node (left-edge child pointer `ptr` plus a tail of
`(key, child-pointer)` entries) or a leaf node (forward pointer `ptr` plus a
tail of `(key, value)` entries). -/
inductive Node where
  | inner (left : Addr) (tail : List (Key × Addr))
  | leaf (fwd : Option Addr) (tail : List (Key × Val))
deriving DecidableEq, Repr

/-- The archive memory: which (disjoint) node lives at which address. -/
abbrev Mem := List (Addr × Node)

/-- Context-level errors surfaced as `ArchivedBTreeMapError::ContextError`. -/
inductive CtxError where
  | outOfBounds
  | duplicateClaim
deriving DecidableEq, Repr

/-- The error type `ArchivedBTreeMapError<K, V, C>` from
`src/collections/btree_map/validation.rs` (key/value element errors are
modelled away because the element validators always succeed here). -/
inductive BTreeError where
  | tooFewInnerNodeEntries (n : Nat)
  | tooFewLeafNodeEntries (n : Nat)
  | mismatchedInnerChildKey
  | innerNodeInLeafLevel
  | invalidLeafNodeDepth (expected actual : Nat)
  | unsortedLeafNodeEntries
  | unlinkedLeafNode
  | unsortedLeafNode
  | lastLeafForwardPointerNotNull
  | lengthMismatch (expected actual : Nat)
  | contextError (e : CtxError)
deriving DecidableEq, Repr

/-- Modelled from the spec: the minimum-entry constants
`MIN_ENTRIES_PER_INNER_NODE` and `MIN_ENTRIES_PER_LEAF_NODE` are declared in
`src/collections/btree_map/mod.rs`, which is not under `src/`; the spec
requires positive minima (a zero-entry root leaf is rejected, §4.5), so both
are modelled as 1. -/
def MIN_ENTRIES_PER_INNER_NODE : Nat := 1

/-- Modelled from the spec: see `MIN_ENTRIES_PER_INNER_NODE`. -/
def MIN_ENTRIES_PER_LEAF_NODE : Nat := 1

/-- `ArchiveContext::claim_owned_rel_ptr`: resolve a relative pointer,
bounds-check it against the buffer, and mark its target range as owned.
Fails with `DuplicateClaim` when the range is already owned and with an
out-of-bounds context error when the target is not a node of the buffer. -/
def claim_owned_rel_ptr (mem : Mem) (claimed : List Addr) (target : Addr) :
    Except BTreeError (Node × List Addr) :=
  if target ∈ claimed then .error (.contextError .duplicateClaim)
  else
    match mem.lookup target with
    | none => .error (.contextError .outOfBounds)
    | some n => .ok (n, target :: claimed)

/-- Modelled from the spec: `Node::check_and_classify` lives in
`src/collections/btree_map/mod.rs`, which is not under `src/`.  Per the spec
(§4.5) it reads `meta`, validates the common header, dispatches to the node
check (`InnerNode::check_bytes` / `LeafNode::check_bytes`, which are under
`src/` and enforce the minimum entry counts) and returns the classified node.
The relative-pointer field checks (`RelPtr::manual_check_bytes`) validate
plain integers and cannot fail here; the key/value element checks are the
external collaborators and are modelled as succeeding. -/
def check_and_classify (n : Node) : Except BTreeError Node :=
  match n with
  | .inner left tail =>
    if tail.length < MIN_ENTRIES_PER_INNER_NODE then
      .error (.tooFewInnerNodeEntries tail.length)
    else .ok (.inner left tail)
  | .leaf fwd tail =>
    if tail.length < MIN_ENTRIES_PER_LEAF_NODE then
      .error (.tooFewLeafNodeEntries tail.length)
    else .ok (.leaf fwd tail)

/-- The first key of a classified node: `tail[0].key`, for both inner and
leaf children (`ArchivedBTreeMap::check_bytes`, the `child_key` match).
The default is only reachable on an empty tail, which classification has
already ruled out (`MIN_ENTRIES_PER_*_NODE ≥ 1`). -/
def firstKey : Node → Key
  | .inner _ tail => (tail.headD (0, 0)).1
  | .leaf _ tail => (tail.headD (0, 0)).1

/-- The entry loop of the structural walk (`for entry in node.tail.iter()`):
claim each entry's child pointer, classify it, compare the child's first key
with the entry's key (`MismatchedInnerChildKey` on mismatch) and enqueue the
child at the given depth. -/
def process_entries (mem : Mem) :
    List (Key × Addr) → List Addr → Nat →
    Except BTreeError (List (Addr × Node × Nat) × List Addr)
  | [], claimed, _ => .ok ([], claimed)
  | (key, ptr) :: rest, claimed, childDepth =>
    match claim_owned_rel_ptr mem claimed ptr with
    | .error e => .error e
    | .ok (child, claimed1) =>
      match check_and_classify child with
      | .error e => .error e
      | .ok childNode =>
        if firstKey childNode ≠ key then .error .mismatchedInnerChildKey
        else
          match process_entries mem rest claimed1 childDepth with
          | .error e => .error e
          | .ok (tailQueue, claimed2) =>
            .ok ((ptr, childNode, childDepth) :: tailQueue, claimed2)

/-- One iteration of the structural walk on an inner node at the queue front:
claim the left-edge child `ptr`, classify it, enqueue it at `depth + 1`, then
process the tail entries in order.  Returns the nodes to push to the back of
the queue and the updated claim set. -/
def walk_step (mem : Mem) (left : Addr) (tail : List (Key × Addr))
    (depth : Nat) (claimed : List Addr) :
    Except BTreeError (List (Addr × Node × Nat) × List Addr) :=
  match claim_owned_rel_ptr mem claimed left with
  | .error e => .error e
  | .ok (leftChild, claimed1) =>
    match check_and_classify leftChild with
    | .error e => .error e
    | .ok leftNode =>
      match process_entries mem tail claimed1 (depth + 1) with
      | .error e => .error e
      | .ok (entryQueue, claimed2) =>
        .ok ((left, leftNode, depth + 1) :: entryQueue, claimed2)

/-- The breadth-first structural walk
(`while let Some(&(ClassifiedNode::Inner(node), depth)) = nodes.front()`).
The loop is embedded with explicit fuel; `none` marks fuel exhaustion (the
termination theorem shows sufficient fuel is computable from the buffer). -/
def walk (mem : Mem) :
    Nat → List (Addr × Node × Nat) → List Addr →
    Option (Except BTreeError (List (Addr × Node × Nat) × List Addr))
  | 0, _, _ => none
  | fuel + 1, queue, claimed =>
    match queue with
    | (_, .inner left tail, depth) :: rest =>
      match walk_step mem left tail depth claimed with
      | .error e => some (.error e)
      | .ok (newNodes, claimed1) => walk mem fuel (rest ++ newNodes) claimed1
    | q => some (.ok (q, claimed))

/-- The adjacent-pair sortedness check inside a leaf
(`for (prev, next) in leaf.tail.iter().zip(leaf.tail.iter().skip(1))`):
fails with `UnsortedLeafNodeEntries` on the first pair with
`next.key < prev.key`. -/
def check_sorted_entries : List (Key × Val) → Except BTreeError Unit
  | p :: n :: rest =>
    if n.1 < p.1 then .error .unsortedLeafNodeEntries
    else check_sorted_entries (n :: rest)
  | _ => .ok ()

/-- `ArchiveContext::check_rel_ptr` applied to a leaf's forward pointer:
resolve `base + offset` (an offset of 0 resolves to the pointer's own base)
and bounds-check the target without claiming it. -/
def resolve_fwd (mem : Mem) (selfAddr : Addr) (fwd : Option Addr) :
    Except BTreeError Addr :=
  let target := match fwd with | none => selfAddr | some t => t
  if (mem.lookup target).isSome then .ok target
  else .error (.contextError .outOfBounds)

/-- The leaf linkage checks for a non-last leaf (`if i < nodes.len() - 1`):
resolve the forward pointer without claiming, require it to equal the address
of the next queued leaf (`UnlinkedLeafNode` otherwise), then require the next
leaf's first key to be no less than this leaf's last key
(`UnsortedLeafNode` otherwise). -/
def leaf_link_check (mem : Mem) (selfAddr : Addr) (fwd : Option Addr)
    (tail : List (Key × Val)) (next : Addr × Node × Nat) :
    Except BTreeError Unit :=
  match resolve_fwd mem selfAddr fwd with
  | .error e => .error e
  | .ok nextPtr =>
    match next.2.1 with
    | .inner _ _ => .error .innerNodeInLeafLevel
    | .leaf _ nextTail =>
      if nextPtr ≠ next.1 then .error .unlinkedLeafNode
      else if (nextTail.headD (0, 0)).1 < (tail.getLastD (0, 0)).1 then
        .error .unsortedLeafNode
      else .ok ()

/-- The leaf-level pass (`for (i, (node, depth)) in nodes.iter().enumerate()`):
every remaining node must be a leaf at the expected depth with sorted
entries; non-last leaves must link to the next queued leaf in sorted order
and the last leaf's forward pointer must be null.  Returns the accumulated
`entry_count`. -/
def leaf_level (mem : Mem) (expectedDepth : Nat) :
    List (Addr × Node × Nat) → Except BTreeError Nat
  | [] => .ok 0
  | (selfAddr, node, depth) :: rest =>
    match node with
    | .inner _ _ => .error .innerNodeInLeafLevel
    | .leaf fwd tail =>
      if depth ≠ expectedDepth then
        .error (.invalidLeafNodeDepth expectedDepth depth)
      else
        match check_sorted_entries tail with
        | .error e => .error e
        | .ok _ =>
          match rest with
          | next :: _ =>
            match leaf_link_check mem selfAddr fwd tail next with
            | .error e => .error e
            | .ok _ =>
              match leaf_level mem expectedDepth rest with
              | .error e => .error e
              | .ok count => .ok (tail.length + count)
          | [] =>
            if fwd.isSome then .error .lastLeafForwardPointerNotNull
            else
              match leaf_level mem expectedDepth rest with
              | .error e => .error e
              | .ok count => .ok (tail.length + count)

/-- `ArchivedBTreeMap::check_bytes`: claim and classify the root, run the
breadth-first structural walk, run the leaf-level pass with the expected
depth fixed by the queue front, and reconcile the counted entries with the
archived `len` (`LengthMismatch` on disagreement).  `none` is fuel
exhaustion of the embedded loop. -/
def checkBTreeMap (mem : Mem) (len : Nat) (rootPtr : Addr) (fuel : Nat) :
    Option (Except BTreeError Nat) :=
  match claim_owned_rel_ptr mem [] rootPtr with
  | .error e => some (.error e)
  | .ok (rootNode, claimed) =>
    match check_and_classify rootNode with
    | .error e => some (.error e)
    | .ok root =>
      match walk mem fuel [(rootPtr, root, 0)] claimed with
      | none => none
      | some (.error e) => some (.error e)
      | some (.ok (queue, _)) =>
        let expectedDepth := match queue.head? with
          | some (_, _, d) => d
          | none => 0
        match leaf_level mem expectedDepth queue with
        | .error e => some (.error e)
        | .ok entryCount =>
          if entryCount ≠ len then
            some (.error (.lengthMismatch len entryCount))
          else some (.ok entryCount)

/-- A hand-crafted archive in which one subtree (the leaf at address 2,
reached from the root's tail entry) is one level shallower than its sibling
subtree (the inner node at address 1, whose leaves sit at depth 2).  All keys
are equal so that every ordering and child-key invariant holds, isolating the
depth invariant. -/
def memShallow : Mem :=
  [ (0, .inner 1 [(0, 2)]),
    (1, .inner 3 [(0, 4)]),
    (2, .leaf (some 3) [(0, 0)]),
    (3, .leaf (some 4) [(0, 0)]),
    (4, .leaf none [(0, 0)]) ]

/-- The field attributed in a `StructCheckError` raised by
`InnerNodeEntry::check_bytes`. -/
inductive EntryField where
  | ptrField
  | keyField
deriving DecidableEq, Repr

/-- `InnerNodeEntry::check_bytes` exactly as written in
`src/collections/btree_map/validation.rs` (lines 21-48): it first
manually checks the entry's relative pointer, then *resolves and
bounds-checks* the child pointer (`context.bounds_check_ptr`) and
*byte-checks the child node* (`CheckBytes::check_bytes(child_ptr, context)`),
attributing any failure to the `ptr` field; only afterwards does it check the
key.  `bounds_check_ptr` is not a method of the `ArchiveContext` trait
declared in `src/validation/mod.rs` and no `CheckBytes` impl for `Node`
exists under `src/`; the resolution is modelled as a buffer lookup and the
child byte-check as the node-level check, following the names used in the
source.  The key check for `K` is an external collaborator and succeeds. -/
def innerNodeEntry_check_bytes (mem : Mem) (key : Key) (ptr : Addr) :
    Except EntryField (Key × Addr) :=
  match mem.lookup ptr with
  | none => .error .ptrField
  | some child =>
    match check_and_classify child with
    | .error _ => .error .ptrField
    | .ok _ => .ok (key, ptr)

/-! ## Entry points from `src/validation/mod.rs`

The validation context is consumed through the `ArchiveContext` trait; the
entry points are embedded parametrically over an arbitrary context
implementation (a state type `σ` with the four operations the entry points
call) and an arbitrary byte-check for the root type. -/

/-- The operations of an `ArchiveContext` implementation used by
`check_archived_value_with_context`: `check_ptr`, `push_prefix_subtree`,
`pop_prefix_range` and `finish`.  Positions and pointers are buffer offsets;
range tokens are naturals (the stack depth recorded by pushes). -/
structure ArchiveContextOps (σ ε : Type) where
  checkPtr : σ → Nat → Except ε (Nat × σ)
  pushPrefixSubtree : σ → Nat → Except ε (Nat × σ)
  popPrefixRange : σ → Nat → Except ε σ
  finish : σ → Except ε σ

/-- `CheckArchiveError<T, C>` from `src/validation/mod.rs`. -/
inductive CheckArchiveError (T C : Type) where
  | checkBytesError (e : T)
  | contextError (e : C)
deriving DecidableEq, Repr

/-- `check_archived_value_with_context`: check the root pointer at `pos`,
push a prefix subtree range ending at the root, byte-check the root, pop the
range, and `finish()`; return the root reference only when every step
succeeds. -/
def check_archived_value_with_context {σ ε τ : Type}
    (ops : ArchiveContextOps σ ε) (checkBytes : σ → Nat → Except τ σ)
    (pos : Nat) (s : σ) : Except (CheckArchiveError τ ε) (Nat × σ) :=
  match ops.checkPtr s pos with
  | .error e => .error (.contextError e)
  | .ok (ptr, s1) =>
    match ops.pushPrefixSubtree s1 ptr with
    | .error e => .error (.contextError e)
    | .ok (range, s2) =>
      match checkBytes s2 ptr with
      | .error e => .error (.checkBytesError e)
      | .ok s3 =>
        match ops.popPrefixRange s3 range with
        | .error e => .error (.contextError e)
        | .ok s4 =>
          match ops.finish s4 with
          | .error e => .error (.contextError e)
          | .ok s5 => .ok (ptr, s5)

/-- Rust `usize` subtraction on a 64-bit platform: wraps modulo `2 ^ 64`
when the subtrahend exceeds the minuend (release semantics; under debug
assertions the same underflow is a panic). -/
def usizeSub (a b : Nat) : Nat := (2 ^ 64 + a - b) % 2 ^ 64

/-- `check_archived_root_with_context`: delegates to
`check_archived_value_with_context` at position
`buf.len() - size_of::<T::Archived>()`, the subtraction being unchecked
`usize` arithmetic. -/
def check_archived_root_with_context {σ ε τ : Type}
    (ops : ArchiveContextOps σ ε) (checkBytes : σ → Nat → Except τ σ)
    (bufLen sizeArchived : Nat) (s : σ) :
    Except (CheckArchiveError τ ε) (Nat × σ) :=
  check_archived_value_with_context ops checkBytes
    (usizeSub bufLen sizeArchived) s

/-- Written from the spec's words (§6, steps 1-5) for the refinement claim:
1. bounds-check the root pointer, 2. push a prefix subtree range,
3. invoke the root's byte-check, 4. pop the range, 5. call `finish()`. -/
def checkArchivedValueSpec {σ ε τ : Type}
    (ops : ArchiveContextOps σ ε) (checkBytes : σ → Nat → Except τ σ)
    (pos : Nat) (s : σ) : Except (CheckArchiveError τ ε) (Nat × σ) := do
  let (ptr, s1) ← (ops.checkPtr s pos).mapError CheckArchiveError.contextError
  let (range, s2) ←
    (ops.pushPrefixSubtree s1 ptr).mapError CheckArchiveError.contextError
  let s3 ← (checkBytes s2 ptr).mapError CheckArchiveError.checkBytesError
  let s4 ←
    (ops.popPrefixRange s3 range).mapError CheckArchiveError.contextError
  let s5 ← (ops.finish s4).mapError CheckArchiveError.contextError
  return (ptr, s5)

/-! ## Auxiliary predicates used by the theorems -/

instance {ε α : Type} [DecidableEq ε] [DecidableEq α] :
    DecidableEq (Except ε α)
  | .error a, .error b =>
    if h : a = b then .isTrue (by rw [h])
    else .isFalse (by intro hc; cases hc; exact h rfl)
  | .error _, .ok _ => .isFalse (by intro hc; cases hc)
  | .ok _, .error _ => .isFalse (by intro hc; cases hc)
  | .ok a, .ok b =>
    if h : a = b then .isTrue (by rw [h])
    else .isFalse (by intro hc; cases hc; exact h rfl)

/-- The number of buffer addresses that hold a node and are not yet claimed:
the walk's termination measure. -/
def freshCount (mem : Mem) (claimed : List Addr) : Nat :=
  ((mem.map Prod.fst).filter (fun a => decide (a ∉ claimed))).length

/-- Bound on the size of the claim set in a walk result (trivial on error
or fuel exhaustion). -/
def claimBound :
    Option (Except BTreeError (List (Addr × Node × Nat) × List Addr)) →
    Nat → Prop
  | some (.ok (_, claimed1)), b => claimed1.length ≤ b
  | _, _ => True

/-- Whether a validator error is the leaf-depth error. -/
def isDepthError : BTreeError → Prop
  | .invalidLeafNodeDepth _ _ => True
  | _ => False

/-- The depths stored in a walk queue. -/
def depths (queue : List (Addr × Node × Nat)) : List Nat :=
  queue.map (fun x => x.2.2)

/-- The breadth-first queue invariant: depths are nondecreasing and every
depth is at most one more than the front depth. -/
def bfsInv (l : List Nat) : Prop :=
  l.Chain' (· ≤ ·) ∧ ∀ x ∈ l, ∀ h ∈ l.head?, x ≤ h + 1

/-- A trivial context implementation used to instantiate the entry-point
theorems at concrete inputs. -/
def trivialOps : ArchiveContextOps Unit Unit where
  checkPtr := fun s p => .ok (p, s)
  pushPrefixSubtree := fun s _ => .ok (0, s)
  popPrefixRange := fun s _ => .ok s
  finish := fun s => .ok s

/-- A trivial root byte-check used to instantiate the entry-point theorems
at concrete inputs. -/
def trivialCb : Unit → Nat → Except Unit Unit := fun s _ => .ok s
/-- The leaf sortedness check either succeeds or fails with `UnsortedLeafNodeEntries`. -/
theorem check_sorted_total : ∀ tail : List (Key × Val),
    check_sorted_entries tail = .ok () ∨
    check_sorted_entries tail = .error .unsortedLeafNodeEntries := by
  intro tail
  induction tail with
  | nil => left; rfl
  | cons p rest ih =>
    cases rest with
    | nil => left; rfl
    | cons n rest2 =>
      simp only [check_sorted_entries]
      by_cases h : n.1 < p.1
      · right; rw [if_pos h]
      · rw [if_neg h]; exact ih

/-- The leaf sortedness check fails exactly when some adjacent pair of entries is strictly decreasing in key. -/
theorem check_sorted_err_iff : ∀ tail : List (Key × Val),
    check_sorted_entries tail = .error .unsortedLeafNodeEntries ↔
      ∃ pre p n suf, tail = pre ++ p :: n :: suf ∧ n.1 < p.1 := by
  intro tail
  induction tail with
  | nil =>
    simp only [check_sorted_entries]
    constructor
    · intro h; cases h
    · rintro ⟨pre, p, n, suf, h, -⟩
      cases pre <;> simp at h
  | cons p rest ih =>
    cases rest with
    | nil =>
      simp only [check_sorted_entries]
      constructor
      · intro h; cases h
      · rintro ⟨pre, q, n, suf, h, -⟩
        cases pre with
        | nil => simp at h
        | cons r pre2 =>
          rw [List.cons_append] at h
          injection h with h1 h2
          cases pre2 <;> simp at h2
    | cons n rest2 =>
      simp only [check_sorted_entries]
      by_cases hlt : n.1 < p.1
      · rw [if_pos hlt]
        constructor
        · intro _; exact ⟨[], p, n, rest2, rfl, hlt⟩
        · intro _; rfl
      · rw [if_neg hlt]
        rw [ih]
        constructor
        · rintro ⟨pre, q, m, suf, h, hm⟩
          exact ⟨p :: pre, q, m, suf, by rw [List.cons_append, h], hm⟩
        · rintro ⟨pre, q, m, suf, h, hm⟩
          cases pre with
          | nil =>
            simp only [List.nil_append] at h
            injection h with h1 h2
            injection h2 with h2a h2b
            subst h1; subst h2a
            exact absurd hm hlt
          | cons r pre2 =>
            rw [List.cons_append] at h
            injection h with h1 h2
            exact ⟨pre2, q, m, suf, h2, hm⟩

/-- Filtering with a larger exclusion set keeps at most as many elements. -/
theorem filter_notmem_cons_le (l : List Nat) (a : Nat) (claimed : List Nat) :
    (l.filter (fun x => decide (x ∉ a :: claimed))).length ≤
      (l.filter (fun x => decide (x ∉ claimed))).length := by
  induction l with
  | nil => simp
  | cons b l2 ih =>
    simp only [List.filter]
    by_cases hb : b ∈ claimed
    · have h1 : decide (b ∉ claimed) = false := by simp [hb]
      have h2 : decide (b ∉ a :: claimed) = false := by simp [hb]
      rw [h1, h2]
      exact ih
    · by_cases hba : b = a
      · subst hba
        have h1 : decide (b ∉ claimed) = true := by simp [hb]
        have h2 : decide (b ∉ b :: claimed) = false := by simp
        rw [h1, h2]
        exact Nat.le_succ_of_le ih
      · have h1 : decide (b ∉ claimed) = true := by simp [hb]
        have h2 : decide (b ∉ a :: claimed) = true := by simp [hb, hba]
        rw [h1, h2]
        simpa using ih

/-- Filtering out one more present element keeps strictly fewer elements. -/
theorem filter_notmem_cons_lt (l : List Nat) (a : Nat) (claimed : List Nat)
    (hl : a ∈ l) (hc : a ∉ claimed) :
    (l.filter (fun x => decide (x ∉ a :: claimed))).length <
      (l.filter (fun x => decide (x ∉ claimed))).length := by
  induction l with
  | nil => cases hl
  | cons b l2 ih =>
    simp only [List.filter]
    by_cases hba : b = a
    · subst hba
      have h1 : decide (b ∉ claimed) = true := by simp [hc]
      have h2 : decide (b ∉ b :: claimed) = false := by simp
      rw [h1, h2]
      exact Nat.lt_succ_of_le (filter_notmem_cons_le l2 b claimed)
    · have hl2 : a ∈ l2 := by
        cases hl with
        | head => exact absurd rfl hba
        | tail _ h => exact h
      by_cases hb : b ∈ claimed
      · have h1 : decide (b ∉ claimed) = false := by simp [hb]
        have h2 : decide (b ∉ a :: claimed) = false := by simp [hb]
        rw [h1, h2]
        exact ih hl2
      · have h1 : decide (b ∉ claimed) = true := by simp [hb]
        have h2 : decide (b ∉ a :: claimed) = true := by simp [hb, hba]
        rw [h1, h2]
        simpa using ih hl2

/-- A successful association-list lookup means the key occurs in the key list. -/
theorem lookup_some_mem_keys (mem : Mem) (t : Addr) (n : Node)
    (h : mem.lookup t = some n) : t ∈ mem.map Prod.fst := by
  induction mem with
  | nil => cases h
  | cons p rest ih =>
    simp only [List.lookup] at h
    split at h
    · next heq =>
      simp only [List.map, List.mem_cons]
      left
      simp only [beq_iff_eq] at heq
      exact heq
    · simp only [List.map, List.mem_cons]
      right
      exact ih h

/-- A successful claim prepends a fresh buffer address to the claim set. -/
theorem claim_ok_spec (mem : Mem) (claimed : List Addr) (t : Addr) (n : Node)
    (c1 : List Addr)
    (h : claim_owned_rel_ptr mem claimed t = .ok (n, c1)) :
    c1 = t :: claimed ∧ t ∈ mem.map Prod.fst ∧ t ∉ claimed := by
  simp only [claim_owned_rel_ptr] at h
  split at h
  · cases h
  · next hmem =>
    split at h
    · cases h
    · next n2 hlook =>
      injection h with h
      injection h with hn hc
      subst hc
      exact ⟨rfl, lookup_some_mem_keys mem t n2 hlook, hmem⟩

/-- Claiming a fresh buffer address strictly decreases the number of unclaimed addresses. -/
theorem freshCount_cons_lt (mem : Mem) (a : Nat) (claimed : List Nat)
    (h1 : a ∈ mem.map Prod.fst) (h2 : a ∉ claimed) :
    freshCount mem (a :: claimed) < freshCount mem claimed :=
  filter_notmem_cons_lt (mem.map Prod.fst) a claimed h1 h2

/-- A successful claim strictly shrinks the unclaimed set and conserves the sum of claim-set size and unclaimed count. -/
theorem claim_ok_fresh (mem : Mem) (claimed : List Addr) (t : Addr) (n : Node)
    (c1 : List Addr)
    (h : claim_owned_rel_ptr mem claimed t = .ok (n, c1)) :
    freshCount mem c1 < freshCount mem claimed ∧
      c1.length + freshCount mem c1 ≤ claimed.length + freshCount mem claimed := by
  obtain ⟨hc1, hkeys, hnm⟩ := claim_ok_spec mem claimed t n c1 h
  subst hc1
  have hlt := freshCount_cons_lt mem t claimed hkeys hnm
  refine ⟨hlt, ?_⟩
  simp only [List.length_cons]
  omega

/-- The entry loop never grows the unclaimed set and conserves the size/unclaimed sum. -/
theorem process_entries_fresh (mem : Mem) :
    ∀ (entries : List (Key × Addr)) (claimed : List Addr) (d : Nat)
      (q : List (Addr × Node × Nat)) (c2 : List Addr),
    process_entries mem entries claimed d = .ok (q, c2) →
    freshCount mem c2 ≤ freshCount mem claimed ∧
      c2.length + freshCount mem c2 ≤
        claimed.length + freshCount mem claimed := by
  intro entries
  induction entries with
  | nil =>
    intro claimed d q c2 h
    simp only [process_entries] at h
    injection h with h
    injection h with hq hc
    subst hc
    exact ⟨le_refl _, le_refl _⟩
  | cons e rest ih =>
    intro claimed d q c2 h
    obtain ⟨key, ptr⟩ := e
    simp only [process_entries] at h
    cases h1 : claim_owned_rel_ptr mem claimed ptr with
    | error e2 => simp only [h1] at h; cases h
    | ok pr =>
      obtain ⟨child, c1⟩ := pr
      simp only [h1] at h
      cases h2 : check_and_classify child with
      | error e2 => simp only [h2] at h; cases h
      | ok childNode =>
        simp only [h2] at h
        split at h
        · cases h
        · cases h3 : process_entries mem rest c1 d with
          | error e2 => simp only [h3] at h; cases h
          | ok p2 =>
            obtain ⟨q2, c3⟩ := p2
            simp only [h3] at h
            cases h
            have hcl := claim_ok_fresh mem claimed ptr child c1 h1
            have hpe := ih c1 d q2 _ h3
            exact ⟨le_trans hpe.1 (le_of_lt hcl.1), le_trans hpe.2 hcl.2⟩

/-- Each walk iteration strictly shrinks the unclaimed set: its claims are fresh and disjoint. -/
theorem walk_step_fresh (mem : Mem) (left : Addr) (tail : List (Key × Addr))
    (depth : Nat) (claimed : List Addr) (newNodes : List (Addr × Node × Nat))
    (c2 : List Addr)
    (h : walk_step mem left tail depth claimed = .ok (newNodes, c2)) :
    freshCount mem c2 < freshCount mem claimed ∧
      c2.length + freshCount mem c2 ≤
        claimed.length + freshCount mem claimed := by
  simp only [walk_step] at h
  cases h1 : claim_owned_rel_ptr mem claimed left with
  | error e => simp only [h1] at h; cases h
  | ok pr =>
    obtain ⟨leftChild, c1⟩ := pr
    simp only [h1] at h
    cases h2 : check_and_classify leftChild with
    | error e => simp only [h2] at h; cases h
    | ok leftNode =>
      simp only [h2] at h
      cases h3 : process_entries mem tail c1 (depth + 1) with
      | error e => simp only [h3] at h; cases h
      | ok p2 =>
        obtain ⟨entryQueue, c3⟩ := p2
        simp only [h3] at h
        cases h
        have hcl := claim_ok_fresh mem claimed left leftChild c1 h1
        have hpe := process_entries_fresh mem tail c1 (depth + 1) entryQueue _ h3
        exact ⟨lt_of_le_of_lt hpe.1 hcl.1, le_trans hpe.2 hcl.2⟩

/-- The claim-set size bound is monotone. -/
theorem claimBound_mono
    (r : Option (Except BTreeError (List (Addr × Node × Nat) × List Addr)))
    (b b' : Nat) (h : claimBound r b) (hb : b ≤ b') : claimBound r b' := by
  cases r with
  | none => trivial
  | some x =>
    cases x with
    | error e => trivial
    | ok p =>
      obtain ⟨q, c⟩ := p
      simp only [claimBound] at *
      omega

/-- Claiming never raises the depth error. -/
theorem claim_err_not_depth (mem : Mem) (claimed : List Addr) (t : Addr)
    (e : BTreeError) (h : claim_owned_rel_ptr mem claimed t = .error e) :
    ¬ isDepthError e := by
  simp only [claim_owned_rel_ptr] at h
  split at h
  · injection h with h; subst h; simp [isDepthError]
  · split at h
    · injection h with h; subst h; simp [isDepthError]
    · cases h

/-- Classification never raises the depth error. -/
theorem classify_err_not_depth (n : Node) (e : BTreeError)
    (h : check_and_classify n = .error e) : ¬ isDepthError e := by
  cases n with
  | inner left tail =>
    simp only [check_and_classify] at h
    split at h
    · injection h with h; subst h; simp [isDepthError]
    · cases h
  | leaf fwd tail =>
    simp only [check_and_classify] at h
    split at h
    · injection h with h; subst h; simp [isDepthError]
    · cases h

/-- The entry loop never raises the depth error. -/
theorem process_entries_err_not_depth (mem : Mem) :
    ∀ (entries : List (Key × Addr)) (claimed : List Addr) (d : Nat)
      (e : BTreeError),
    process_entries mem entries claimed d = .error e → ¬ isDepthError e := by
  intro entries
  induction entries with
  | nil => intro claimed d e h; cases h
  | cons ent rest ih =>
    intro claimed d e h
    obtain ⟨key, ptr⟩ := ent
    simp only [process_entries] at h
    cases h1 : claim_owned_rel_ptr mem claimed ptr with
    | error e2 =>
      simp only [h1] at h
      injection h with h; subst h
      exact claim_err_not_depth mem claimed ptr _ h1
    | ok pr =>
      obtain ⟨child, c1⟩ := pr
      simp only [h1] at h
      cases h2 : check_and_classify child with
      | error e2 =>
        simp only [h2] at h
        injection h with h; subst h
        exact classify_err_not_depth child _ h2
      | ok childNode =>
        simp only [h2] at h
        split at h
        · injection h with h; subst h; simp [isDepthError]
        · cases h3 : process_entries mem rest c1 d with
          | error e2 =>
            simp only [h3] at h
            injection h with h; subst h
            exact ih c1 d _ h3
          | ok p2 =>
            obtain ⟨q2, c3⟩ := p2
            simp only [h3] at h
            cases h

/-- A walk iteration never raises the depth error. -/
theorem walk_step_err_not_depth (mem : Mem) (left : Addr)
    (tail : List (Key × Addr)) (depth : Nat) (claimed : List Addr)
    (e : BTreeError) (h : walk_step mem left tail depth claimed = .error e) :
    ¬ isDepthError e := by
  simp only [walk_step] at h
  cases h1 : claim_owned_rel_ptr mem claimed left with
  | error e2 =>
    simp only [h1] at h
    injection h with h; subst h
    exact claim_err_not_depth mem claimed left _ h1
  | ok pr =>
    obtain ⟨leftChild, c1⟩ := pr
    simp only [h1] at h
    cases h2 : check_and_classify leftChild with
    | error e2 =>
      simp only [h2] at h
      injection h with h; subst h
      exact classify_err_not_depth leftChild _ h2
    | ok leftNode =>
      simp only [h2] at h
      cases h3 : process_entries mem tail c1 (depth + 1) with
      | error e2 =>
        simp only [h3] at h
        injection h with h; subst h
        exact process_entries_err_not_depth mem tail c1 (depth + 1) _ h3
      | ok p2 =>
        obtain ⟨entryQueue, c3⟩ := p2
        simp only [h3] at h
        cases h

/-- The structural walk never raises the depth error. -/
theorem walk_err_not_depth (mem : Mem) : ∀ (fuel : Nat)
    (queue : List (Addr × Node × Nat)) (claimed : List Addr)
    (e : BTreeError),
    walk mem fuel queue claimed = some (.error e) → ¬ isDepthError e := by
  intro fuel
  induction fuel with
  | zero => intro queue claimed e h; cases h
  | succ fuel ih =>
    intro queue claimed e h
    cases queue with
    | nil => simp only [walk] at h; cases h
    | cons x rest =>
      obtain ⟨a, node, depth⟩ := x
      cases node with
      | leaf fwd tail => simp only [walk] at h; cases h
      | inner left tail =>
        simp only [walk] at h
        cases hs : walk_step mem left tail depth claimed with
        | error e2 =>
          simp only [hs] at h
          injection h with h
          injection h with h
          subst h
          exact walk_step_err_not_depth mem left tail depth claimed _ hs
        | ok pr =>
          obtain ⟨newNodes, c1⟩ := pr
          simp only [hs] at h
          exact ih (rest ++ newNodes) c1 e h

/-- The entry loop enqueues all children at the given depth. -/
theorem process_entries_depths (mem : Mem) :
    ∀ (entries : List (Key × Addr)) (claimed : List Addr) (d : Nat)
      (q : List (Addr × Node × Nat)) (c2 : List Addr),
    process_entries mem entries claimed d = .ok (q, c2) →
    depths q = List.replicate entries.length d := by
  intro entries
  induction entries with
  | nil =>
    intro claimed d q c2 h
    simp only [process_entries] at h
    cases h
    rfl
  | cons ent rest ih =>
    intro claimed d q c2 h
    obtain ⟨key, ptr⟩ := ent
    simp only [process_entries] at h
    cases h1 : claim_owned_rel_ptr mem claimed ptr with
    | error e2 => simp only [h1] at h; cases h
    | ok pr =>
      obtain ⟨child, c1⟩ := pr
      simp only [h1] at h
      cases h2 : check_and_classify child with
      | error e2 => simp only [h2] at h; cases h
      | ok childNode =>
        simp only [h2] at h
        split at h
        · cases h
        · cases h3 : process_entries mem rest c1 d with
          | error e2 => simp only [h3] at h; cases h
          | ok p2 =>
            obtain ⟨q2, c3⟩ := p2
            simp only [h3] at h
            cases h
            simp only [depths, List.map, List.length_cons, List.replicate_succ]
            have := ih c1 d q2 _ h3
            simp only [depths] at this
            rw [this]

/-- A walk iteration enqueues the left-edge child and all entry children at `depth + 1`. -/
theorem walk_step_depths (mem : Mem) (left : Addr)
    (tail : List (Key × Addr)) (depth : Nat) (claimed : List Addr)
    (newNodes : List (Addr × Node × Nat)) (c2 : List Addr)
    (h : walk_step mem left tail depth claimed = .ok (newNodes, c2)) :
    depths newNodes = List.replicate (tail.length + 1) (depth + 1) := by
  simp only [walk_step] at h
  cases h1 : claim_owned_rel_ptr mem claimed left with
  | error e => simp only [h1] at h; cases h
  | ok pr =>
    obtain ⟨leftChild, c1⟩ := pr
    simp only [h1] at h
    cases h2 : check_and_classify leftChild with
    | error e => simp only [h2] at h; cases h
    | ok leftNode =>
      simp only [h2] at h
      cases h3 : process_entries mem tail c1 (depth + 1) with
      | error e => simp only [h3] at h; cases h
      | ok p2 =>
        obtain ⟨entryQueue, c3⟩ := p2
        simp only [h3] at h
        cases h
        simp only [depths, List.map, List.replicate_succ]
        have := process_entries_depths mem tail c1 (depth + 1) entryQueue _ h3
        simp only [depths] at this
        rw [this]

/-- A constant list is nondecreasing. -/
theorem chain_le_replicate (k c : Nat) :
    List.Chain' (· ≤ ·) (List.replicate k c) := by
  induction k with
  | zero => simp
  | succ k ih =>
    rw [List.replicate_succ]
    cases k with
    | zero => simp
    | succ k2 =>
      rw [List.replicate_succ]
      refine List.chain'_cons.mpr ⟨le_refl c, ?_⟩
      rw [← List.replicate_succ]
      exact ih

/-- In a nondecreasing list the head is a lower bound. -/
theorem chain_head_le {l : List Nat} (hchain : l.Chain' (· ≤ ·)) :
    ∀ x ∈ l, ∀ h0 ∈ l.head?, h0 ≤ x := by
  cases l with
  | nil => intro x hx; cases hx
  | cons h1 t =>
    intro x hx h0 hh0
    rw [List.head?_cons, Option.mem_def] at hh0
    injection hh0 with hh0
    subst hh0
    rw [List.chain'_iff_pairwise] at hchain
    cases hx with
    | head => exact le_refl _
    | tail _ hx2 => exact (List.pairwise_cons.mp hchain).1 x hx2

/-- Popping the front and pushing children one level deeper at the back preserves the breadth-first queue invariant. -/
theorem bfsInv_step (p : Nat) (l : List Nat) (k : Nat)
    (h : bfsInv (p :: l)) : bfsInv (l ++ List.replicate k (p + 1)) := by
  obtain ⟨hchain, hbound⟩ := h
  have hchain_l : l.Chain' (· ≤ ·) := hchain.tail
  have hple : ∀ x ∈ l, p ≤ x := by
    intro x hx
    exact chain_head_le hchain x (List.mem_cons_of_mem p hx) p (by simp)
  have hup : ∀ x ∈ l, x ≤ p + 1 := by
    intro x hx
    exact hbound x (List.mem_cons_of_mem p hx) p (by simp)
  constructor
  · refine List.chain'_append.mpr ⟨hchain_l, chain_le_replicate k (p + 1), ?_⟩
    intro x hx y hy
    have hxl : x ∈ l := List.mem_of_mem_getLast? hx
    have hyv : y = p + 1 := by
      cases k with
      | zero => simp at hy
      | succ k2 =>
        rw [List.replicate_succ, List.head?_cons, Option.mem_def] at hy
        injection hy with hy
        exact hy.symm
    subst hyv
    exact hup x hxl
  · intro x hx h0 hh0
    cases l with
    | nil =>
      simp only [List.nil_append] at hx hh0
      have hx' := List.eq_of_mem_replicate hx
      subst hx'
      cases k with
      | zero => cases hx
      | succ k2 =>
        rw [List.replicate_succ, List.head?_cons, Option.mem_def] at hh0
        injection hh0 with hh0
        subst hh0
        omega
    | cons h1 t =>
      rw [List.cons_append, List.head?_cons, Option.mem_def] at hh0
      injection hh0 with hh0
      subst hh0
      have hp1 : p ≤ h1 := hple h1 (by simp)
      rcases List.mem_append.mp hx with hxl | hxr
      · have hx2 : x ≤ p + 1 := hup x hxl
        omega
      · have hx2 := List.eq_of_mem_replicate hxr
        subst hx2
        omega

/-- The structural walk preserves the breadth-first queue invariant. -/
theorem walk_ok_inv (mem : Mem) : ∀ (fuel : Nat)
    (queue : List (Addr × Node × Nat)) (claimed : List Addr)
    (q : List (Addr × Node × Nat)) (c : List Addr),
    walk mem fuel queue claimed = some (.ok (q, c)) →
    bfsInv (depths queue) → bfsInv (depths q) := by
  intro fuel
  induction fuel with
  | zero => intro queue claimed q c h; cases h
  | succ fuel ih =>
    intro queue claimed q c h hinv
    cases queue with
    | nil =>
      simp only [walk] at h
      cases h
      exact hinv
    | cons x rest =>
      obtain ⟨a, node, depth⟩ := x
      cases node with
      | leaf fwd tail =>
        simp only [walk] at h
        cases h
        exact hinv
      | inner left tail =>
        simp only [walk] at h
        cases hs : walk_step mem left tail depth claimed with
        | error e => simp only [hs] at h; cases h
        | ok pr =>
          obtain ⟨newNodes, c1⟩ := pr
          simp only [hs] at h
          have hd := walk_step_depths mem left tail depth claimed newNodes c1 hs
          apply ih (rest ++ newNodes) c1 q c h
          have heq : depths (rest ++ newNodes) =
              depths rest ++ List.replicate (tail.length + 1) (depth + 1) := by
            simp only [depths, List.map_append]
            simp only [depths] at hd
            rw [hd]
          rw [heq]
          have hinv' : bfsInv (depth :: depths rest) := by
            simpa only [depths, List.map] using hinv
          exact bfsInv_step depth (depths rest) (tail.length + 1) hinv'

/-- The leaf sortedness check only fails with `UnsortedLeafNodeEntries`. -/
theorem check_sorted_err_shape :
    ∀ (tail : List (Key × Val)) (e : BTreeError),
    check_sorted_entries tail = .error e → e = .unsortedLeafNodeEntries := by
  intro tail
  induction tail with
  | nil => intro e h; cases h
  | cons p rest ih =>
    cases rest with
    | nil => intro e h; cases h
    | cons n rest2 =>
      intro e h
      simp only [check_sorted_entries] at h
      split at h
      · injection h with h; exact h.symm
      · exact ih e h

/-- The leaf linkage check never raises the depth error. -/
theorem leaf_link_err_not_depth (mem : Mem) (sa : Addr) (fwd : Option Addr)
    (tail : List (Key × Val)) (next : Addr × Node × Nat) (e : BTreeError)
    (h : leaf_link_check mem sa fwd tail next = .error e) :
    ¬ isDepthError e := by
  obtain ⟨na, nnode, nd⟩ := next
  cases nnode with
  | inner l2 t2 =>
    simp only [leaf_link_check] at h
    cases hr : resolve_fwd mem sa fwd with
    | error e2 =>
      simp only [hr] at h
      injection h with h; subst h
      simp only [resolve_fwd] at hr
      split at hr
      · cases hr
      · injection hr with hr; subst hr; simp [isDepthError]
    | ok p =>
      simp only [hr] at h
      injection h with h; subst h; simp [isDepthError]
  | leaf nfwd ntail =>
    simp only [leaf_link_check] at h
    cases hr : resolve_fwd mem sa fwd with
    | error e2 =>
      simp only [hr] at h
      injection h with h; subst h
      simp only [resolve_fwd] at hr
      split at hr
      · cases hr
      · injection hr with hr; subst hr; simp [isDepthError]
    | ok p =>
      simp only [hr] at h
      split at h
      · injection h with h; subst h; simp [isDepthError]
      · split at h
        · injection h with h; subst h; simp [isDepthError]
        · cases h

/-- If every queued depth is at least the expected depth, any depth error has `actual` strictly above `expected`. -/
theorem leaf_level_depth_err (mem : Mem) (ed : Nat) :
    ∀ (l : List (Addr × Node × Nat)) (e a : Nat),
    (∀ x ∈ depths l, ed ≤ x) →
    leaf_level mem ed l = .error (.invalidLeafNodeDepth e a) →
    e < a := by
  intro l
  induction l with
  | nil => intro e a _ h; cases h
  | cons x rest ih =>
    obtain ⟨selfAddr, node, depth⟩ := x
    intro e a hb h
    cases node with
    | inner l2 t2 =>
      simp only [leaf_level] at h
      injection h with h; cases h
    | leaf fwd tail =>
      have hsub : ∀ y ∈ depths rest, ed ≤ y := by
        intro y hy
        apply hb
        simp only [depths, List.map, List.mem_cons]
        right
        simpa only [depths] using hy
      have hdm : ed ≤ depth := hb depth (by simp [depths])
      cases rest with
      | nil =>
        simp only [leaf_level] at h
        split at h
        · next hne =>
          injection h with h
          have he : ed = e := by cases h; rfl
          have ha : depth = a := by cases h; rfl
          omega
        · next hdeq =>
          cases hcs : check_sorted_entries tail with
          | error e2 =>
            simp only [hcs] at h
            injection h with h
            have := check_sorted_err_shape tail e2 hcs
            subst this
            cases h
          | ok u =>
            obtain ⟨⟩ := u
            simp only [hcs] at h
            split at h
            · injection h with h; cases h
            · cases h
      | cons next rest2 =>
        rw [leaf_level] at h
        split at h
        · next hne =>
          injection h with h
          have he : ed = e := by cases h; rfl
          have ha : depth = a := by cases h; rfl
          omega
        · next hdeq =>
          cases hcs : check_sorted_entries tail with
          | error e2 =>
            simp only [hcs] at h
            injection h with h
            have := check_sorted_err_shape tail e2 hcs
            subst this
            cases h
          | ok u =>
            obtain ⟨⟩ := u
            simp only [hcs] at h
            cases hlc : leaf_link_check mem selfAddr fwd tail next with
            | error e2 =>
              simp only [hlc] at h
              injection h with h
              subst h
              exact absurd trivial
                (leaf_link_err_not_depth mem selfAddr fwd tail next _ hlc)
            | ok u2 =>
              obtain ⟨⟩ := u2
              simp only [hlc] at h
              cases hll : leaf_level mem ed (next :: rest2) with
              | error e2 =>
                simp only [hll] at h
                injection h with h
                subst h
                exact ih e a hsub hll
              | ok cnt =>
                simp only [hll] at h
                cases h

/-! ## Claim theorems -/

/-- C1 (amended): on the hand-crafted archive `memShallow`, in which the
leaf at address 2 is one level shallower (depth 1) than its sibling
subtree's leaves (depth 2 = d), validation fails with
`InvalidLeafNodeDepth` carrying `expected: d - 1, actual: d`: `expected` is the
depth of the first remaining leaf in the breadth-first queue, which is the
shallower leaf itself, and `actual` is the depth of the deeper leaves. -/
theorem c1_thm :
    checkBTreeMap memShallow 3 0 10 =
      some (.error (.invalidLeafNodeDepth 1 2)) := by decide

/-- C1 counterexample: the claim as stated, with `expected = d = 2` (calling
the first remaining leaf's depth `d`) and `actual = d - 1 = 1` (the shallower
leaf's depth), is false on the code: the shallower leaf is itself the first
remaining leaf, so the fields come out the other way around. -/
theorem c1_cex :
    checkBTreeMap memShallow 3 0 10 ≠
      some (.error (.invalidLeafNodeDepth 2 1)) := by decide

/-- C2 (code bug): evaluating the source's `InnerNodeEntry::check_bytes` at
an entry with a valid key shows that it resolves, bounds-checks and
byte-checks the entry's child pointer, failing with a `ptr`-field error when
the child is out of bounds (first conjunct) or when the child node fails its
own byte-check (second conjunct) — under the claim both checks would
succeed, since only the key would be validated. -/
theorem c2_thm :
    innerNodeEntry_check_bytes [] 1 7 = .error .ptrField ∧
    innerNodeEntry_check_bytes [(7, Node.leaf none [])] 1 7 =
      .error .ptrField := by decide

/-- C3: the per-pair linkage check of a non-last leaf (source lines 416-431)
fails with `UnlinkedLeafNode` exactly when the leaf's forward pointer
resolves (without claiming) to an address other than the next queued leaf's;
otherwise it fails with `UnsortedLeafNode` exactly when the next leaf's
first key is strictly below this leaf's last key; and it succeeds exactly
when the pointer matches and no such key inversion exists. -/
theorem c3_thm : ∀ (mem : Mem) (selfAddr : Addr) (fwd : Option Addr)
    (tail : List (Key × Val)) (nextAddr : Addr) (nextFwd : Option Addr)
    (nextTail : List (Key × Val)) (nextDepth : Nat),
    (leaf_link_check mem selfAddr fwd tail
        (nextAddr, .leaf nextFwd nextTail, nextDepth) =
        .error .unlinkedLeafNode ↔
      ∃ p, resolve_fwd mem selfAddr fwd = .ok p ∧ p ≠ nextAddr) ∧
    (leaf_link_check mem selfAddr fwd tail
        (nextAddr, .leaf nextFwd nextTail, nextDepth) =
        .error .unsortedLeafNode ↔
      resolve_fwd mem selfAddr fwd = .ok nextAddr ∧
        (nextTail.headD (0, 0)).1 < (tail.getLastD (0, 0)).1) ∧
    (leaf_link_check mem selfAddr fwd tail
        (nextAddr, .leaf nextFwd nextTail, nextDepth) = .ok () ↔
      resolve_fwd mem selfAddr fwd = .ok nextAddr ∧
        ¬ (nextTail.headD (0, 0)).1 < (tail.getLastD (0, 0)).1) := by
  intro mem selfAddr fwd tail nextAddr nextFwd nextTail nextDepth
  simp only [leaf_link_check]
  cases hr : resolve_fwd mem selfAddr fwd with
  | error e =>
    have he : e = .contextError .outOfBounds := by
      simp only [resolve_fwd] at hr
      split at hr
      · cases hr
      · cases hr; rfl
    subst he
    simp
  | ok p =>
    by_cases hp : p = nextAddr
    · subst hp
      by_cases hk : (nextTail.headD (0, 0)).1 < (tail.getLastD (0, 0)).1
      · simp [hk]
        split <;> simp
      · simp [hk]
        split <;> simp
    · simp [hp]

/-- C4: in one iteration of the structural walk, the left-edge child is only
claimed and classified — the iteration then reduces to the entry loop with
no condition on the left child's keys (first conjunct) — while each tail
entry's child is claimed, classified, and its first key compared with the
entry's key: the loop fails with `MismatchedInnerChildKey` when they differ
and continues with the child enqueued at `depth + 1` when they agree
(second conjunct). -/
theorem c4_thm : ∀ (mem : Mem) (left : Addr) (tail : List (Key × Addr))
    (depth : Nat) (claimed : List Addr) (leftNode : Node)
    (claimed1 : List Addr),
    claim_owned_rel_ptr mem claimed left = .ok (leftNode, claimed1) →
    check_and_classify leftNode = .ok leftNode →
    (walk_step mem left tail depth claimed =
      (process_entries mem tail claimed1 (depth + 1)).map
        (fun p => ((left, leftNode, depth + 1) :: p.1, p.2))) ∧
    (∀ (key : Key) (a : Addr) (rest : List (Key × Addr)) (c : List Addr)
        (childNode : Node) (c2 : List Addr),
      claim_owned_rel_ptr mem c a = .ok (childNode, c2) →
      check_and_classify childNode = .ok childNode →
      (firstKey childNode ≠ key →
        process_entries mem ((key, a) :: rest) c (depth + 1) =
          .error .mismatchedInnerChildKey) ∧
      (firstKey childNode = key →
        process_entries mem ((key, a) :: rest) c (depth + 1) =
          (process_entries mem rest c2 (depth + 1)).map
            (fun p => ((a, childNode, depth + 1) :: p.1, p.2)))) := by
  intro mem left tail depth claimed leftNode claimed1 h1 h2
  constructor
  · simp only [walk_step, h1, h2]
    cases hpe : process_entries mem tail claimed1 (depth + 1) with
    | error e => simp [Except.map]
    | ok p => obtain ⟨q, c⟩ := p; simp [Except.map]
  · intro key a rest c childNode c2 h3 h4
    constructor
    · intro hne
      simp only [process_entries, h3, h4, if_pos hne]
    · intro heq
      simp only [process_entries, h3, h4]
      rw [if_neg (by simp [heq])]
      cases hpe : process_entries mem rest c2 (depth + 1) with
      | error e => simp [Except.map]
      | ok p => obtain ⟨q, c3⟩ := p; simp [Except.map]

/-- C4 witness: concrete instantiation on `memShallow`, taking the mismatch
branch for an entry whose key 5 differs from the child leaf's first key 0. -/
theorem c4_witness :
    claim_owned_rel_ptr memShallow [0] 1 =
      .ok (Node.inner 3 [(0, 4)], [1, 0]) ∧
    check_and_classify (Node.inner 3 [(0, 4)]) =
      .ok (Node.inner 3 [(0, 4)]) ∧
    claim_owned_rel_ptr memShallow [1, 0] 2 =
      .ok (Node.leaf (some 3) [(0, 0)], [2, 1, 0]) ∧
    firstKey (Node.leaf (some 3) [(0, 0)]) ≠ 5 ∧
    process_entries memShallow [(5, 2)] [1, 0] (0 + 1) =
      .error .mismatchedInnerChildKey :=
  ⟨by decide, by decide, by decide, by decide,
    ((c4_thm memShallow 1 [(0, 2)] 0 [0] (Node.inner 3 [(0, 4)]) [1, 0]
        (by decide) (by decide)).2 5 2 [] [1, 0]
        (Node.leaf (some 3) [(0, 0)]) [2, 1, 0]
        (by decide) (by decide)).1 (by decide)⟩

/-- C5: a leaf's entry check fails with `UnsortedLeafNodeEntries` if and
only if some adjacent pair `(prev, next)` of its tail has
`next.key < prev.key`; dually it succeeds iff no such pair exists, and a
leaf with two equal adjacent keys is accepted (the comparison is strict). -/
theorem c5_thm :
    (∀ tail : List (Key × Val),
      (check_sorted_entries tail = .error .unsortedLeafNodeEntries ↔
        ∃ pre p n suf, tail = pre ++ p :: n :: suf ∧ n.1 < p.1) ∧
      (check_sorted_entries tail = .ok () ↔
        ¬ ∃ pre p n suf, tail = pre ++ p :: n :: suf ∧ n.1 < p.1)) ∧
    check_sorted_entries [(5, 0), (5, 1)] = .ok () := by
  refine ⟨fun tail => ⟨check_sorted_err_iff tail, ?_⟩, by decide⟩
  cases check_sorted_total tail with
  | inl hok =>
    rw [hok]
    simp only [true_iff]
    intro hc
    rw [← check_sorted_err_iff tail] at hc
    rw [hok] at hc
    cases hc
  | inr herr =>
    rw [herr]
    constructor
    · intro h; cases h
    · intro hc
      exact absurd ((check_sorted_err_iff tail).mp herr) hc

/-- C6: classifying an inner node fails with `TooFewInnerNodeEntries(n)`,
`n` being the tail length, exactly when `n < MIN_ENTRIES_PER_INNER_NODE`;
classifying a leaf fails with `TooFewLeafNodeEntries(n)` exactly when
`n < MIN_ENTRIES_PER_LEAF_NODE`; and the minimum applies unconditionally to
the root: a zero-entry root leaf is rejected. -/
theorem c6_thm :
    (∀ left tail, check_and_classify (Node.inner left tail) =
        .error (.tooFewInnerNodeEntries tail.length) ↔
        tail.length < MIN_ENTRIES_PER_INNER_NODE) ∧
    (∀ fwd tail, check_and_classify (Node.leaf fwd tail) =
        .error (.tooFewLeafNodeEntries tail.length) ↔
        tail.length < MIN_ENTRIES_PER_LEAF_NODE) ∧
    checkBTreeMap [(0, Node.leaf none [])] 0 0 1 =
      some (.error (.tooFewLeafNodeEntries 0)) := by
  refine ⟨?_, ?_, by decide⟩
  · intro left tail
    simp only [check_and_classify]
    split <;> simp_all
  · intro fwd tail
    simp only [check_and_classify]
    split <;> simp_all

/-- C7: the breadth-first structural walk terminates for every input — with
fuel exceeding the number of unclaimed buffer addresses the embedded loop
never exhausts its fuel, because every iteration claims at least one fresh
address of the finite buffer — and the walk performs at most
`freshCount mem claimed` claims in total, a bound linear in the number of
nodes of the archive. -/
theorem c7_thm : ∀ (mem : Mem) (fuel : Nat)
    (queue : List (Addr × Node × Nat)) (claimed : List Addr),
    freshCount mem claimed < fuel →
    walk mem fuel queue claimed ≠ none ∧
    claimBound (walk mem fuel queue claimed)
      (claimed.length + freshCount mem claimed) := by
  intro mem fuel
  induction fuel with
  | zero => intro queue claimed h; omega
  | succ fuel ih =>
    intro queue claimed h
    cases queue with
    | nil =>
      simp only [walk]
      exact ⟨by simp, by simp only [claimBound]; omega⟩
    | cons x rest =>
      obtain ⟨a, node, depth⟩ := x
      cases node with
      | leaf fwd tail =>
        simp only [walk]
        exact ⟨by simp, by simp only [claimBound]; omega⟩
      | inner left tail =>
        simp only [walk]
        cases hs : walk_step mem left tail depth claimed with
        | error e =>
          exact ⟨by simp, by simp [claimBound]⟩
        | ok pr =>
          obtain ⟨newNodes, c1⟩ := pr
          have hf := walk_step_fresh mem left tail depth claimed newNodes c1 hs
          have hlt : freshCount mem c1 < fuel := by omega
          obtain ⟨hne, hcb⟩ := ih (rest ++ newNodes) c1 hlt
          exact ⟨hne, claimBound_mono _ _ _ hcb (by omega)⟩

/-- C7 witness: concrete instantiation on `memShallow` with fuel 6 and the
root already claimed. -/
theorem c7_witness :
    freshCount memShallow [0] < 6 ∧
    (walk memShallow 6 [(0, Node.inner 1 [(0, 2)], 0)] [0] ≠ none ∧
      claimBound (walk memShallow 6 [(0, Node.inner 1 [(0, 2)], 0)] [0])
        (List.length [0] + freshCount memShallow [0])) :=
  ⟨by decide, c7_thm memShallow 6 [(0, Node.inner 1 [(0, 2)], 0)] [0]
    (by decide)⟩

/-- C8: `check_archived_root_with_context` behaves identically to
`check_archived_value_with_context` at position
`buf.len() - size_of::<T::Archived>()` (first conjunct); the latter equals
the specification's five-step sequence — context pointer check, prefix
subtree range push, root byte-check, range pop, `finish()` (second
conjunct) — and returns the root reference exactly when every one of those
steps succeeds (third conjunct). -/
theorem c8_thm : ∀ (σ ε τ : Type) (ops : ArchiveContextOps σ ε)
    (cb : σ → Nat → Except τ σ) (bufLen sizeArchived : Nat) (s : σ),
    (check_archived_root_with_context ops cb bufLen sizeArchived s =
      check_archived_value_with_context ops cb
        (usizeSub bufLen sizeArchived) s) ∧
    (∀ pos, check_archived_value_with_context ops cb pos s =
      checkArchivedValueSpec ops cb pos s) ∧
    (∀ pos r s5,
      check_archived_value_with_context ops cb pos s = .ok (r, s5) ↔
      ∃ s1 range s2 s3 s4,
        ops.checkPtr s pos = .ok (r, s1) ∧
        ops.pushPrefixSubtree s1 r = .ok (range, s2) ∧
        cb s2 r = .ok s3 ∧
        ops.popPrefixRange s3 range = .ok s4 ∧
        ops.finish s4 = .ok s5) := by
  intro σ ε τ ops cb bufLen sizeArchived s
  refine ⟨rfl, ?_, ?_⟩
  · intro pos
    cases h1 : ops.checkPtr s pos with
    | error e =>
      simp only [check_archived_value_with_context, checkArchivedValueSpec,
        Except.mapError, h1, bind, Except.bind]
    | ok p1 =>
      obtain ⟨ptr, s1⟩ := p1
      cases h2 : ops.pushPrefixSubtree s1 ptr with
      | error e =>
        simp only [check_archived_value_with_context, checkArchivedValueSpec,
          Except.mapError, h1, h2, bind, Except.bind]
      | ok p2 =>
        obtain ⟨range, s2⟩ := p2
        cases h3 : cb s2 ptr with
        | error e =>
          simp only [check_archived_value_with_context,
            checkArchivedValueSpec, Except.mapError, h1, h2, h3, bind,
            Except.bind]
        | ok s3 =>
          cases h4 : ops.popPrefixRange s3 range with
          | error e =>
            simp only [check_archived_value_with_context,
              checkArchivedValueSpec, Except.mapError, h1, h2, h3, h4, bind,
              Except.bind]
          | ok s4 =>
            cases h5 : ops.finish s4 with
            | error e =>
              simp only [check_archived_value_with_context,
                checkArchivedValueSpec, Except.mapError, h1, h2, h3, h4, h5,
                bind, Except.bind]
            | ok s5 =>
              simp only [check_archived_value_with_context,
                checkArchivedValueSpec, Except.mapError, h1, h2, h3, h4, h5,
                bind, Except.bind, pure, Except.pure]
  · intro pos r s5
    constructor
    · intro h
      simp only [check_archived_value_with_context] at h
      split at h
      next e heq1 => cases h
      next ptr s1 heq1 =>
        split at h
        next e heq2 => cases h
        next range s2 heq2 =>
          split at h
          next e heq3 => cases h
          next s3 heq3 =>
            split at h
            next e heq4 => cases h
            next s4 heq4 =>
              split at h
              next e heq5 => cases h
              next s5x heq5 =>
                injection h with h
                injection h with hr hs
                subst hr; subst hs
                exact ⟨s1, range, s2, s3, s4, heq1, heq2, heq3, heq4, heq5⟩
    · rintro ⟨s1, range, s2, s3, s4, h1, h2, h3, h4, h5⟩
      simp only [check_archived_value_with_context, h1, h2, h3, h4, h5]

/-- C9: every `InvalidLeafNodeDepth` error `expected, actual` returned by
`ArchivedBTreeMap::check_bytes` has `actual` strictly greater than
`expected`: children are enqueued at `depth + 1` behind the front, so queue
depths are nondecreasing, the first remaining leaf has the minimum depth,
and the first leaf itself never fails the depth check. -/
theorem c9_thm : ∀ (mem : Mem) (len rootPtr fuel : Nat) (e a : Nat),
    checkBTreeMap mem len rootPtr fuel =
      some (.error (.invalidLeafNodeDepth e a)) →
    e < a := by
  intro mem len rootPtr fuel e a h
  simp only [checkBTreeMap] at h
  cases h1 : claim_owned_rel_ptr mem [] rootPtr with
  | error e1 =>
    simp only [h1] at h
    injection h with h
    injection h with h
    subst h
    exact absurd trivial (claim_err_not_depth mem [] rootPtr _ h1)
  | ok pr =>
    obtain ⟨rootNode, claimed⟩ := pr
    simp only [h1] at h
    cases h2 : check_and_classify rootNode with
    | error e1 =>
      simp only [h2] at h
      injection h with h
      injection h with h
      subst h
      exact absurd trivial (classify_err_not_depth rootNode _ h2)
    | ok root =>
      simp only [h2] at h
      cases h3 : walk mem fuel [(rootPtr, root, 0)] claimed with
      | none => simp only [h3] at h; cases h
      | some r =>
        simp only [h3] at h
        cases r with
        | error e1 =>
          injection h with h
          injection h with h
          subst h
          exact absurd trivial (walk_err_not_depth mem fuel _ claimed _ h3)
        | ok pr2 =>
          obtain ⟨queue, c2⟩ := pr2
          have hinv : bfsInv (depths queue) := by
            apply walk_ok_inv mem fuel [(rootPtr, root, 0)] claimed queue c2 h3
            constructor
            · simp [depths]
            · intro x hx h0 hh0
              simp only [depths, List.map, List.map_nil] at hx hh0
              rw [List.head?_cons, Option.mem_def] at hh0
              injection hh0 with hh0
              rcases List.mem_singleton.mp hx with hx0
              omega
          cases h4 : leaf_level mem
              (match queue.head? with | some (_, _, d) => d | none => 0)
              queue with
          | error e1 =>
            simp only [h4] at h
            injection h with h
            injection h with h
            subst h
            apply leaf_level_depth_err mem _ queue e a ?_ h4
            intro x hx
            cases queue with
            | nil => simp [depths] at hx
            | cons y rest =>
              obtain ⟨ya, yn, yd⟩ := y
              simp only [List.head?_cons]
              exact chain_head_le hinv.1 x hx yd (by simp [depths])
          | ok cnt =>
            simp only [h4] at h
            split at h
            · injection h with h
              injection h with h
              cases h
            · injection h with h
              cases h

/-- C9 witness: the depth error produced on `memShallow` indeed has
`expected = 1 < 2 = actual`. -/
theorem c9_witness :
    checkBTreeMap memShallow 3 0 10 =
      some (.error (.invalidLeafNodeDepth 1 2)) ∧ 1 < 2 :=
  ⟨by decide, c9_thm memShallow 3 0 10 1 2 (by decide)⟩

/-- C10: when `buf.len() < size_of::<T::Archived>()`,
`check_archived_root_with_context` computes the root position with
unchecked `usize` subtraction, which wraps to the huge value
`2 ^ 64 + buf.len() - size`, strictly beyond the buffer length, and the
function proceeds to delegate with that wrapped position rather than
returning an error value for the short buffer. -/
theorem c10_thm : ∀ (σ ε τ : Type) (ops : ArchiveContextOps σ ε)
    (cb : σ → Nat → Except τ σ) (bufLen sizeArchived : Nat) (s : σ),
    bufLen < sizeArchived → sizeArchived < 2 ^ 64 →
    usizeSub bufLen sizeArchived = 2 ^ 64 + bufLen - sizeArchived ∧
    bufLen < usizeSub bufLen sizeArchived ∧
    check_archived_root_with_context ops cb bufLen sizeArchived s =
      check_archived_value_with_context ops cb
        (2 ^ 64 + bufLen - sizeArchived) s := by
  intro σ ε τ ops cb bufLen sizeArchived s h1 h2
  have hlt : 2 ^ 64 + bufLen - sizeArchived < 2 ^ 64 := by omega
  have he : usizeSub bufLen sizeArchived = 2 ^ 64 + bufLen - sizeArchived :=
    Nat.mod_eq_of_lt hlt
  refine ⟨he, by omega, ?_⟩
  rw [check_archived_root_with_context, he]

/-- C10 witness: a 4-byte buffer with an 8-byte archived root wraps to
position `2 ^ 64 - 4`. -/
theorem c10_witness :
    4 < 8 ∧ 8 < 2 ^ 64 ∧
    (usizeSub 4 8 = 2 ^ 64 + 4 - 8 ∧ 4 < usizeSub 4 8 ∧
      check_archived_root_with_context trivialOps trivialCb 4 8 () =
        check_archived_value_with_context trivialOps trivialCb
          (2 ^ 64 + 4 - 8) ()) :=
  ⟨by decide, by decide,
    c10_thm Unit Unit Unit trivialOps trivialCb 4 8 () (by decide)
      (by decide)⟩
